import Mathlib

/-!
# Verification of the expression evaluator of `src/app/(tabs)/index.tsx`

Shallow embedding of `calculateExpressionWithSteps` (lines 13-60) and
`factorial` (lines 124-129).

Modelling decisions:

* JavaScript numbers are IEEE-754 doubles.  We embed them as `JNum`:
  `NaN`, `Infinity`, `-Infinity`, or an exact rational.  Arithmetic on the
  special values follows the IEEE rules; arithmetic on finite values is
  exact rational arithmetic (the idealization does not track binary
  rounding or the sign of zero — every value reached by the claims below
  is exactly representable, so the model agrees with the code there).
* `calc.pop()` on an empty JavaScript array returns `undefined` (it does
  not throw).  A popped operand is therefore an `Option JNum`, `none`
  standing for `undefined`; `ToNumber(undefined) = NaN` in arithmetic and
  `undefined` renders as `"undefined"` in the template string.
* The two `throw` sites are modelled by `Except String` carrying the
  exact message thrown (`"Invalid expression"` at validation,
  `"Invalid"` at tokenization).  No other code path can fail.
* The tokenizer `expr.match(/\d+(\.\d+)?|[()+\-*/]/g)` is embedded with a
  fuel parameter equal to the input length; every scan step consumes at
  least one character, so the fuel never runs out
  (`tokenizeF_fuel_irrelevant`).
-/

namespace CalcApp

/-- A JavaScript number: `NaN`, `Infinity`, `-Infinity`, or a finite value
(embedded as an exact rational). -/
inductive JNum where
  | nan : JNum
  | inf : JNum
  | neginf : JNum
  | fin (q : ℚ) : JNum
deriving DecidableEq

/-- IEEE negation. -/
def jneg : JNum → JNum
  | .nan => .nan
  | .inf => .neginf
  | .neginf => .inf
  | .fin q => .fin (-q)

/-- IEEE addition (`a + b` on doubles, finite case exact). -/
def jadd : JNum → JNum → JNum
  | .nan, _ => .nan
  | _, .nan => .nan
  | .inf, .neginf => .nan
  | .neginf, .inf => .nan
  | .inf, _ => .inf
  | _, .inf => .inf
  | .neginf, _ => .neginf
  | _, .neginf => .neginf
  | .fin a, .fin b => .fin (a + b)

/-- IEEE subtraction: `a - b = a + (-b)`. -/
def jsub (a b : JNum) : JNum := jadd a (jneg b)

/-- IEEE multiplication (`a * b` on doubles, finite case exact). -/
def jmul : JNum → JNum → JNum
  | .nan, _ => .nan
  | _, .nan => .nan
  | .inf, .inf => .inf
  | .inf, .neginf => .neginf
  | .neginf, .inf => .neginf
  | .neginf, .neginf => .inf
  | .inf, .fin b => if b = 0 then .nan else if 0 < b then .inf else .neginf
  | .fin a, .inf => if a = 0 then .nan else if 0 < a then .inf else .neginf
  | .neginf, .fin b => if b = 0 then .nan else if 0 < b then .neginf else .inf
  | .fin a, .neginf => if a = 0 then .nan else if 0 < a then .neginf else .inf
  | .fin a, .fin b => .fin (a * b)

/-- IEEE division (`a / b` on doubles).  Division of a nonzero finite value
by zero gives a signed infinity, `0 / 0` gives `NaN` — never a thrown
failure (line 52 of the source). -/
def jdiv : JNum → JNum → JNum
  | .nan, _ => .nan
  | _, .nan => .nan
  | .inf, .inf => .nan
  | .inf, .neginf => .nan
  | .neginf, .inf => .nan
  | .neginf, .neginf => .nan
  | .inf, .fin b => if 0 ≤ b then .inf else .neginf
  | .neginf, .fin b => if 0 ≤ b then .neginf else .inf
  | .fin _, .inf => .fin 0
  | .fin _, .neginf => .fin 0
  | .fin a, .fin b =>
      if b = 0 then (if a = 0 then .nan else if 0 < a then .inf else .neginf)
      else .fin (a / b)

/-- Decimal rendering of a non-integral rational, mirroring JavaScript
number-to-string on terminating decimals (the only non-integral values the
claims reach); a rational whose denominator is not of the form `2^i·5^j`
(reachable only through division, where the exact-rational idealization
already departs from binary rounding) falls back to a `num/den` form. -/
def ratDecimal (q : ℚ) : String :=
  match (List.range 120).find? (fun k => 10 ^ k % q.den == 0) with
  | some k =>
    let scaled : Int := q.num * ((10 ^ k) / q.den : ℕ)
    let sgn := if q.num < 0 then "-" else ""
    let s := Nat.repr scaled.natAbs
    let s := if s.length < k + 1 then
        String.mk (List.replicate (k + 1 - s.length) '0') ++ s else s
    sgn ++ (s.take (s.length - k)) ++ "." ++ (s.drop (s.length - k))
  | none => Int.repr q.num ++ "/" ++ Nat.repr q.den

/-- JavaScript number-to-string (the `${x}` interpolation at line 54). -/
def jstr : JNum → String
  | .nan => "NaN"
  | .inf => "Infinity"
  | .neginf => "-Infinity"
  | .fin q => if q.den = 1 then Int.repr q.num else ratDecimal q

/-- Rendering of a popped operand: `undefined` (empty-stack pop) renders as
`"undefined"`. -/
def strOpt : Option JNum → String
  | none => "undefined"
  | some v => jstr v

/-- `ToNumber` applied to a popped operand: `undefined` converts to `NaN`. -/
def toJ : Option JNum → JNum
  | none => .nan
  | some v => v

/-- A token produced by `expr.match(/\d+(\.\d+)?|[()+\-*/]/g)` (line 21).
The JavaScript code keeps the matched strings and separates them with
`!isNaN(Number(t))` (line 25); on the tokenizer's output that test holds
exactly for the number literals, so we tag the two shapes at the point of
lexing, carrying `Number(t)` for a literal. -/
inductive Tok where
  | num (v : ℚ) : Tok
  | sym (c : Char) : Tok
deriving DecidableEq

/-- Value of a digit string (most significant first). -/
def digitsToNat (l : List Char) : ℕ :=
  l.foldl (fun a c => 10 * a + (c.toNat - '0'.toNat)) 0

/-- `Number` applied to a matched literal `intDs ++ "." ++ fracDs`
(`fracDs = []` when the fractional part is absent); exact, per the
rational idealization. -/
def litVal (intDs fracDs : List Char) : ℚ :=
  (digitsToNat intDs : ℚ) + (digitsToNat fracDs : ℚ) / 10 ^ fracDs.length

/-- One-character alternative `[()+\-*/]` of the token regex. -/
def isSymChar (c : Char) : Bool :=
  c = '(' || c = ')' || c = '+' || c = '-' || c = '*' || c = '/'

/-- The global scan of `expr.match(/\d+(\.\d+)?|[()+\-*/]/g)`: at each
position, greedily match a number literal (digits, then optionally `.` and
at least one digit — if no digit follows the `.`, the optional group is
dropped and the scan resumes at the `.`), else a single symbol character,
else skip one character (spaces and stray `.`).  `fuel` bounds the number
of scan steps; each step consumes at least one character. -/
def tokenizeF : ℕ → List Char → List Tok
  | 0, _ => []
  | _ + 1, [] => []
  | fuel + 1, c :: rest =>
    if c.isDigit then
      let ds := rest.takeWhile Char.isDigit
      let r1 := rest.dropWhile Char.isDigit
      let fs := r1.tail.takeWhile Char.isDigit
      if r1.head? = some '.' ∧ fs ≠ [] then
        Tok.num (litVal (c :: ds) fs) :: tokenizeF fuel (r1.tail.dropWhile Char.isDigit)
      else
        Tok.num (litVal (c :: ds) []) :: tokenizeF fuel r1
    else if isSymChar c then
      Tok.sym c :: tokenizeF fuel rest
    else
      tokenizeF fuel rest

/-- The tokenizer, with fuel equal to the input length (always enough). -/
def tokenize (l : List Char) : List Tok := tokenizeF l.length l

/-- Character class of the validation regex `/^[0-9+\-*/.() ]+$/`
(line 14). -/
def validChar (c : Char) : Bool :=
  c.isDigit || c = '+' || c = '-' || c = '*' || c = '/' || c = '.' ||
    c = '(' || c = ')' || c = ' '

/-- `/^[0-9+\-*/.() ]+$/.test(expr)`: nonempty and every character in the
class. -/
def jsValid (s : String) : Bool := !s.data.isEmpty && s.data.all validChar

/-- The precedence object `ops = { "+": 1, "-": 1, "*": 2, "/": 2 }`
(line 16); `none` models the absence of the key (`t in ops` is
`(ops t).isSome`, and an absent lookup yields `undefined`). -/
def ops : Char → Option ℕ
  | '+' => some 1
  | '-' => some 1
  | '*' => some 2
  | '/' => some 2
  | _ => none

/-- The loop guard `ops[stack[stack.length-1]] >= ops[t]` (line 27):
`undefined >= n` is `false`, so a `(` on the stack stops the popping. -/
def shouldPop (top t : Char) : Bool :=
  match ops top, ops t with
  | some p, some q => decide (q ≤ p)
  | _, _ => false

/-- Pop loop of lines 27-29: returns the popped entries in pop order and
the remaining stack (head = top of stack). -/
def popWhileGE (stack : List Char) (t : Char) : List Char × List Char :=
  match stack with
  | [] => ([], [])
  | top :: rest =>
    if shouldPop top t then
      let (p, r) := popWhileGE rest t
      (top :: p, r)
    else ([], top :: rest)

/-- Pop loop of lines 33-34: pop until the top is `(` (or the stack is
empty), returning popped entries in pop order and the remaining stack. -/
def popUntilParen (stack : List Char) : List Char × List Char :=
  match stack with
  | [] => ([], [])
  | top :: rest =>
    if top = '(' then ([], top :: rest)
    else
      let (p, r) := popUntilParen rest
      (top :: p, r)

/-- State of the infix-to-postfix scan: the operator stack (head = top) and
the postfix output so far. -/
structure SYState where
  stack : List Char
  output : List Tok
deriving DecidableEq

/-- Body of the `tokens.forEach` at lines 24-37: number tokens go to the
output, operator tokens pop by precedence then push, `(` pushes
unconditionally, `)` pops to the output until a `(` which is then dropped
(`stack.pop()` on an empty stack is a silent no-op). -/
def syStep (st : SYState) (t : Tok) : SYState :=
  match t with
  | .num v => ⟨st.stack, st.output ++ [.num v]⟩
  | .sym c =>
    if (ops c).isSome then
      let (popped, rest) := popWhileGE st.stack c
      ⟨c :: rest, st.output ++ popped.map Tok.sym⟩
    else if c = '(' then ⟨'(' :: st.stack, st.output⟩
    else if c = ')' then
      let (popped, rest) := popUntilParen st.stack
      ⟨rest.tail, st.output ++ popped.map Tok.sym⟩
    else st

/-- The full infix scan over the token list. -/
def syScan (tokens : List Tok) : SYState := tokens.foldl syStep ⟨[], []⟩

/-- Lines 24-39: scan the tokens, then `while (stack.length)
output.push(stack.pop())` — every remaining stack entry (operators and any
unmatched `(`) is appended to the output in pop order. -/
def toRPN (tokens : List Tok) : List Tok :=
  (syScan tokens).output ++ (syScan tokens).stack.map Tok.sym

/-- Lines 47-53: `res` starts at `0`; the `switch` computes the four
operators (with `undefined` operands converting to `NaN`) and leaves
`res = 0` for any other symbol (an unmatched `(` that reached the output). -/
def applyOp (c : Char) (a b : Option JNum) : JNum :=
  match c with
  | '+' => jadd (toJ a) (toJ b)
  | '-' => jsub (toJ a) (toJ b)
  | '*' => jmul (toJ a) (toJ b)
  | '/' => jdiv (toJ a) (toJ b)
  | _ => .fin 0

/-- State of the postfix evaluation: the operand stack (named `calc` in
the source — a Lean keyword, hence `calcStack` here; head = top) and the
accumulated step strings. -/
structure EvalState where
  calcStack : List JNum
  steps : List String
deriving DecidableEq

/-- Body of the `output.forEach` at lines 42-57: push a number; for a
symbol pop `b` then `a` (an empty-stack pop yields `undefined`, not a
failure), compute `res`, record the step string, push `res`. -/
def evalStep (st : EvalState) (t : Tok) : EvalState :=
  match t with
  | .num v => ⟨.fin v :: st.calcStack, st.steps⟩
  | .sym c =>
    let b := st.calcStack.head?
    let a := st.calcStack.tail.head?
    let res := applyOp c a b
    ⟨res :: st.calcStack.tail.tail,
      st.steps ++ [strOpt a ++ " " ++ c.toString ++ " " ++ strOpt b ++ " = " ++ jstr res]⟩

/-- The postfix evaluation pass over the whole output sequence. -/
def runRPN (output : List Tok) : EvalState := output.foldl evalStep ⟨[], []⟩

/-- The returned record `{ result: calc[0], steps }` (line 59): `calc[0]`
is the bottom of the operand stack (`none` models `undefined` when the
stack is empty). -/
structure Outcome where
  result : Option JNum
  steps : List String
deriving DecidableEq

/-- `calculateExpressionWithSteps` (lines 13-60).  Validation failure
throws `"Invalid expression"`; a null `match` result (zero tokens) throws
`"Invalid"`; otherwise the infix scan, the final stack drain and the
postfix evaluation run to completion and the record is returned. -/
def calculateExpressionWithSteps (expr : String) : Except String Outcome :=
  if jsValid expr then
    match tokenize expr.data with
    | [] => .error "Invalid"
    | t :: ts =>
      let fin := runRPN (toRPN (t :: ts))
      .ok ⟨fin.calcStack.getLast?, fin.steps⟩
  else .error "Invalid expression"

/-- The spec's two error kinds (§7). -/
inductive ErrKind where
  | invalidExpression : ErrKind
  | malformedExpression : ErrKind
deriving DecidableEq

/-- Classification of the thrown messages by the spec's kinds: §7 assigns
both throw sites (disallowed character, zero tokens) the kind
`InvalidExpression`; no site in the code throws with kind
`MalformedExpression`. -/
def errKind : String → Option ErrKind
  | "Invalid expression" => some .invalidExpression
  | "Invalid" => some .invalidExpression
  | _ => none

/-- `factorial` (lines 124-129): negative input returns `NaN`; otherwise
`r = 1` is multiplied by each integer `i` with `2 ≤ i ≤ n` in increasing
order (for a finite input `n`, the loop runs up to `⌊n⌋`). -/
def factorial (n : ℚ) : JNum :=
  if n < 0 then .nan
  else .fin ((List.range' 2 (n.floor.toNat - 1)).foldl (fun (r : ℚ) (i : ℕ) => r * (i : ℚ)) 1)

/-! ## Supporting lemmas -/

theorem dropWhile_length_le (p : Char → Bool) (l : List Char) :
    (l.dropWhile p).length ≤ l.length := by
  induction l with
  | nil => simp [List.dropWhile]
  | cons c cs ih =>
    rw [List.dropWhile_cons]
    split
    · exact Nat.le_succ_of_le ih
    · exact Nat.le_refl _

theorem tokenizeF_nil (f : ℕ) : tokenizeF f [] = [] := by
  cases f <;> rfl

/-- Any fuel of at least the input length gives the same token list: every
scan step consumes at least one character. -/
theorem tokenizeF_fuel_irrelevant :
    ∀ (f₁ f₂ : ℕ) (l : List Char), l.length ≤ f₁ → l.length ≤ f₂ →
      tokenizeF f₁ l = tokenizeF f₂ l := by
  intro f₁
  induction f₁ with
  | zero =>
    intro f₂ l h₁ _
    have : l = [] := List.length_eq_zero.mp (Nat.le_zero.mp h₁)
    subst this
    rw [tokenizeF_nil, tokenizeF_nil]
  | succ f ih =>
    intro f₂ l h₁ h₂
    match l with
    | [] => rw [tokenizeF_nil, tokenizeF_nil]
    | c :: rest =>
      match f₂ with
      | 0 => exact absurd h₂ (by simp)
      | g + 1 =>
        have hrest : rest.length ≤ f := by simpa using h₁
        have hrest' : rest.length ≤ g := by simpa using h₂
        have hdw : (rest.dropWhile Char.isDigit).length ≤ rest.length :=
          dropWhile_length_le _ _
        have htdw : ((rest.dropWhile Char.isDigit).tail.dropWhile Char.isDigit).length ≤
            rest.length := by
          calc ((rest.dropWhile Char.isDigit).tail.dropWhile Char.isDigit).length
              ≤ (rest.dropWhile Char.isDigit).tail.length := dropWhile_length_le _ _
            _ ≤ (rest.dropWhile Char.isDigit).length := (rest.dropWhile Char.isDigit).length_tail ▸
                Nat.sub_le _ _
            _ ≤ rest.length := hdw
        by_cases hd : c.isDigit
        · by_cases hdot : (rest.dropWhile Char.isDigit).head? = some '.' ∧
              (rest.dropWhile Char.isDigit).tail.takeWhile Char.isDigit ≠ []
          · simp only [tokenizeF, hd, if_true]
            rw [if_pos hdot, if_pos hdot,
              ih g ((rest.dropWhile Char.isDigit).tail.dropWhile Char.isDigit)
                (by omega) (by omega)]
          · simp only [tokenizeF, hd, if_true]
            rw [if_neg hdot, if_neg hdot,
              ih g (rest.dropWhile Char.isDigit) (by omega) (by omega)]
        · by_cases hs : isSymChar c
          · simp only [tokenizeF, hd, Bool.false_eq_true, if_false, hs, if_true]
            rw [ih g rest hrest hrest']
          · simp only [tokenizeF, hd, hs, Bool.false_eq_true, if_false]
            exact ih g rest hrest hrest'

theorem tokenizeF_eq_tokenize (f : ℕ) (l : List Char) (h : l.length ≤ f) :
    tokenizeF f l = tokenize l :=
  tokenizeF_fuel_irrelevant f l.length l h (Nat.le_refl _)

theorem litVal_nil (l : List Char) : litVal l [] = (digitsToNat l : ℚ) := by
  simp [litVal, digitsToNat]

/-- A maximal block of digits at the front of the input, followed by
nothing or by a `+`, is lexed as one number token and the scan continues
behind it. -/
theorem tokenize_digits (g r : List Char) (hg : g ≠ []) (hd : ∀ c ∈ g, c.isDigit)
    (hr : r = [] ∨ ∃ r', r = '+' :: r') :
    tokenize (g ++ r) = Tok.num (digitsToNat g : ℚ) :: tokenize r := by
  match g, hg with
  | c :: ds, _ =>
    have hc : c.isDigit := hd c (List.mem_cons_self c ds)
    have hds : ∀ x ∈ ds, Char.isDigit x = true :=
      fun x hx => hd x (List.mem_cons_of_mem c hx)
    have htw : (ds ++ r).takeWhile Char.isDigit = ds := by
      rw [List.takeWhile_append_of_pos hds]
      rcases hr with rfl | ⟨r', rfl⟩
      · simp
      · rw [List.takeWhile_cons_of_neg (by decide)]
        simp
    have hdw : (ds ++ r).dropWhile Char.isDigit = r := by
      rw [List.dropWhile_append_of_pos hds]
      rcases hr with rfl | ⟨r', rfl⟩
      · simp
      · rw [List.dropWhile_cons_of_neg (by decide)]
    have hhd : r.head? ≠ some '.' := by
      rcases hr with rfl | ⟨r', rfl⟩ <;> simp
    show tokenizeF (c :: ds ++ r).length (c :: (ds ++ r)) = _
    have hlen : (c :: ds ++ r).length = (ds ++ r).length + 1 := by simp
    rw [hlen]
    simp only [tokenizeF, hc, if_true]
    rw [if_neg (by rw [hdw]; exact fun hcon => hhd hcon.1)]
    rw [htw, hdw, litVal_nil, tokenizeF_eq_tokenize _ r (by simp)]

theorem tokenize_plus_cons (l : List Char) :
    tokenize ('+' :: l) = Tok.sym '+' :: tokenize l := by
  show tokenizeF (l.length + 1) ('+' :: l) = _
  simp only [tokenizeF]
  rw [if_neg (by decide), if_pos (by decide)]
  rfl

theorem tokenize_dot_cons (l : List Char) : tokenize ('.' :: l) = tokenize l := by
  show tokenizeF (l.length + 1) ('.' :: l) = _
  simp only [tokenizeF]
  rw [if_neg (by decide), if_neg (by decide)]
  rfl

/-- A nonempty sequence of digit groups joined by single `+` characters:
the shape of every valid input made of digits and `+`. -/
def plusExpr : List Char → List (List Char) → List Char
  | g, [] => g
  | g, h :: t => g ++ '+' :: plusExpr h t

theorem plusExpr_ne_nil (g : List Char) (gs : List (List Char)) (hg : g ≠ []) :
    plusExpr g gs ≠ [] := by
  cases gs with
  | nil => exact hg
  | cons h t =>
    show g ++ '+' :: plusExpr h t ≠ []
    simp

theorem tokenize_plusExpr : ∀ (gs : List (List Char)) (g : List Char),
    g ≠ [] → (∀ c ∈ g, c.isDigit) → (∀ h ∈ gs, h ≠ [] ∧ ∀ c ∈ h, c.isDigit) →
    tokenize (plusExpr g gs) =
      Tok.num (digitsToNat g : ℚ) ::
        (gs.map fun h => [Tok.sym '+', Tok.num (digitsToNat h : ℚ)]).flatten := by
  intro gs
  induction gs with
  | nil =>
    intro g hg hd _
    have := tokenize_digits g [] hg hd (Or.inl rfl)
    simpa using this
  | cons h t ih =>
    intro g hg hd hgs
    show tokenize (g ++ '+' :: plusExpr h t) = _
    rw [tokenize_digits g ('+' :: plusExpr h t) hg hd (Or.inr ⟨_, rfl⟩),
      tokenize_plus_cons,
      ih h (hgs h (List.mem_cons_self h t)).1 (hgs h (List.mem_cons_self h t)).2
        (fun x hx => hgs x (List.mem_cons_of_mem h hx))]
    simp

theorem plusExpr_valid : ∀ (gs : List (List Char)) (g : List Char),
    (∀ c ∈ g, c.isDigit) → (∀ h ∈ gs, ∀ c ∈ h, c.isDigit) →
    ∀ c ∈ plusExpr g gs, validChar c := by
  intro gs
  induction gs with
  | nil =>
    intro g hg _ c hc
    simp [validChar, hg c hc]
  | cons h t ih =>
    intro g hg hgs c hc
    rcases List.mem_append.mp hc with hcg | hcr
    · simp [validChar, hg c hcg]
    · rcases List.mem_cons.mp hcr with rfl | hcp
      · simp [validChar]
      · exact ih h (hgs h (List.mem_cons_self h t))
          (fun x hx => hgs x (List.mem_cons_of_mem h hx)) c hcp

theorem syStep_plus_on_plus (out : List Tok) :
    syStep ⟨['+'], out⟩ (Tok.sym '+') = ⟨['+'], out ++ [Tok.sym '+']⟩ := by
  simp [syStep, ops, popWhileGE, shouldPop]

theorem syStep_plus_on_empty (out : List Tok) :
    syStep ⟨[], out⟩ (Tok.sym '+') = ⟨['+'], out⟩ := by
  simp [syStep, ops, popWhileGE]

/-- Scanning the repeated `+ wᵢ` units from a stack holding a single `+`
leaves the stack unchanged and appends the units verbatim to the output
(each `+` pops the stacked equal-precedence `+` before pushing itself). -/
theorem foldl_syStep_plus_units (vs : List ℚ) : ∀ out : List Tok,
    List.foldl syStep ⟨['+'], out⟩ ((vs.map fun w => [Tok.sym '+', Tok.num w]).flatten) =
      ⟨['+'], out ++ (vs.map fun w => [Tok.sym '+', Tok.num w]).flatten⟩ := by
  induction vs with
  | nil => intro out; simp
  | cons w ws ih =>
    intro out
    simp only [List.map_cons, List.flatten_cons, List.cons_append, List.nil_append,
      List.foldl_cons]
    rw [syStep_plus_on_plus]
    show List.foldl syStep (syStep ⟨['+'], out ++ [Tok.sym '+']⟩ (Tok.num w)) _ = _
    have : syStep ⟨['+'], out ++ [Tok.sym '+']⟩ (Tok.num w) =
        ⟨['+'], (out ++ [Tok.sym '+', Tok.num w])⟩ := by
      simp [syStep]
    rw [this, ih]
    simp

theorem toRPN_single (v : ℚ) : toRPN [Tok.num v] = [Tok.num v] := by
  simp [toRPN, syScan, syStep]

/-- Postfix form of `v + w + w₁ + ⋯ + wₖ`: the values in source order,
with the first `+` after the first two values and the remaining `+`s each
directly after their right operand... (shape as produced by the scan and
the final stack drain). -/
theorem toRPN_sum (v w : ℚ) (ws : List ℚ) :
    toRPN (Tok.num v :: Tok.sym '+' :: Tok.num w ::
        (ws.map fun x => [Tok.sym '+', Tok.num x]).flatten) =
      Tok.num v :: Tok.num w ::
        ((ws.map fun x => [Tok.sym '+', Tok.num x]).flatten ++ [Tok.sym '+']) := by
  unfold toRPN syScan
  simp only [List.foldl_cons]
  have h1 : syStep ⟨[], []⟩ (Tok.num v) = ⟨[], [Tok.num v]⟩ := rfl
  have h2 : syStep ⟨['+'], [Tok.num v]⟩ (Tok.num w) = ⟨['+'], [Tok.num v, Tok.num w]⟩ := rfl
  rw [h1, syStep_plus_on_empty, h2, foldl_syStep_plus_units ws [Tok.num v, Tok.num w]]
  simp

theorem flatten_shift (ws : List ℚ) :
    (ws.map fun x => [Tok.sym '+', Tok.num x]).flatten ++ [Tok.sym '+'] =
      Tok.sym '+' :: (ws.map fun x => [Tok.num x, Tok.sym '+']).flatten := by
  induction ws with
  | nil => simp
  | cons x xs ih => simp [ih]

theorem evalStep_num (st : EvalState) (v : ℚ) :
    evalStep st (Tok.num v) = ⟨.fin v :: st.calcStack, st.steps⟩ := rfl

/-- Evaluating the repeated `wᵢ +` units from a one-value stack keeps a
one-value stack, accumulating the sum and one step string per unit. -/
theorem foldl_evalStep_add_units (ws : List ℚ) : ∀ (acc : ℚ) (steps : List String),
    ∃ tr : List String,
      List.foldl evalStep ⟨[JNum.fin acc], steps⟩
          ((ws.map fun x => [Tok.num x, Tok.sym '+']).flatten) =
        ⟨[JNum.fin (acc + ws.sum)], steps ++ tr⟩ ∧ tr.length = ws.length := by
  induction ws with
  | nil => intro acc steps; exact ⟨[], by simp, rfl⟩
  | cons x xs ih =>
    intro acc steps
    simp only [List.map_cons, List.flatten_cons, List.cons_append, List.nil_append,
      List.foldl_cons, evalStep_num]
    have hstep : evalStep ⟨[JNum.fin x, JNum.fin acc], steps⟩ (Tok.sym '+') =
        ⟨[JNum.fin (acc + x)],
          steps ++ [strOpt (some (.fin acc)) ++ " " ++ ('+').toString ++ " " ++
            strOpt (some (.fin x)) ++ " = " ++ jstr (.fin (acc + x))]⟩ := by
      simp [evalStep, applyOp, toJ, jadd]
    rw [hstep]
    obtain ⟨tr, h1, h2⟩ := ih (acc + x)
      (steps ++ [strOpt (some (.fin acc)) ++ " " ++ ('+').toString ++ " " ++
        strOpt (some (.fin x)) ++ " = " ++ jstr (.fin (acc + x))])
    refine ⟨(strOpt (some (.fin acc)) ++ " " ++ ('+').toString ++ " " ++
        strOpt (some (.fin x)) ++ " = " ++ jstr (.fin (acc + x))) :: tr, ?_, by simp [h2]⟩
    rw [h1]
    simp [EvalState.mk.injEq, List.sum_cons, add_assoc]

/-- When validation passes and tokenization is nonempty, the evaluator
returns the record built from the postfix run. -/
theorem calc_eq_of_tokens (s : String) (hv : jsValid s = true) (t : Tok) (ts : List Tok)
    (ht : tokenize s.data = t :: ts) :
    calculateExpressionWithSteps s =
      .ok ⟨(runRPN (toRPN (t :: ts))).calcStack.getLast?,
        (runRPN (toRPN (t :: ts))).steps⟩ := by
  unfold calculateExpressionWithSteps
  rw [if_pos hv, ht]

theorem jsValid_plusExpr (g : List Char) (gs : List (List Char)) (hg1 : g ≠ [])
    (hg2 : ∀ c ∈ g, c.isDigit) (hgs : ∀ h ∈ gs, ∀ c ∈ h, c.isDigit) :
    jsValid ⟨plusExpr g gs⟩ = true := by
  have h1 : (⟨plusExpr g gs⟩ : String).data = plusExpr g gs := rfl
  simp only [jsValid, h1, Bool.and_eq_true, Bool.not_eq_true', List.all_eq_true]
  exact ⟨by simpa using plusExpr_ne_nil g gs hg1,
    fun c hc => plusExpr_valid gs g hg2 hgs c hc⟩

/-! ## The claims -/

/-- Claim C4: for every valid input composed solely of digits and `+` —
digit groups `g, gs₁, …, gsₖ` joined by single `+` characters, at least
one group — evaluation succeeds, the value is the arithmetic sum of the
number literals, and the step count is the number of operands minus one. -/
theorem sum_of_digit_plus_input (g : List Char) (gs : List (List Char))
    (hg : g ≠ [] ∧ ∀ c ∈ g, c.isDigit)
    (hgs : ∀ h ∈ gs, h ≠ [] ∧ ∀ c ∈ h, c.isDigit) :
    ∃ o : Outcome,
      calculateExpressionWithSteps ⟨plusExpr g gs⟩ = .ok o ∧
      o.result = some (.fin ((digitsToNat g : ℚ) +
        (gs.map fun h => (digitsToNat h : ℚ)).sum)) ∧
      o.steps.length = gs.length := by
  obtain ⟨hg1, hg2⟩ := hg
  have hvalid := jsValid_plusExpr g gs hg1 hg2 (fun h hh => (hgs h hh).2)
  have hdata : (⟨plusExpr g gs⟩ : String).data = plusExpr g gs := rfl
  have htok : tokenize (plusExpr g gs) =
      Tok.num (digitsToNat g : ℚ) ::
        (gs.map fun h => [Tok.sym '+', Tok.num (digitsToNat h : ℚ)]).flatten :=
    tokenize_plusExpr gs g hg1 hg2 hgs
  cases gs with
  | nil =>
    have := calc_eq_of_tokens ⟨plusExpr g []⟩ hvalid _ _ (hdata ▸ htok)
    refine ⟨_, this, ?_, ?_⟩
    · simp [toRPN_single, runRPN, evalStep_num]
    · simp [toRPN_single, runRPN, evalStep_num]
  | cons h t =>
    set v : ℚ := (digitsToNat g : ℚ) with hv
    set w : ℚ := (digitsToNat h : ℚ) with hw
    set vs : List ℚ := t.map (fun x => (digitsToNat x : ℚ)) with hvs
    have hmap : (t.map fun x => [Tok.sym '+', Tok.num (digitsToNat x : ℚ)]) =
        vs.map fun x => [Tok.sym '+', Tok.num x] := by
      rw [hvs, List.map_map]; rfl
    have htok' : tokenize (plusExpr g (h :: t)) =
        Tok.num v :: Tok.sym '+' :: Tok.num w ::
          (vs.map fun x => [Tok.sym '+', Tok.num x]).flatten := by
      rw [htok, ← hmap]; simp
    have hthis := calc_eq_of_tokens ⟨plusExpr g (h :: t)⟩ hvalid _ _ (hdata ▸ htok')
    rw [toRPN_sum, flatten_shift] at hthis
    have hstep : evalStep ⟨[JNum.fin w, JNum.fin v], []⟩ (Tok.sym '+') =
        ⟨[JNum.fin (v + w)],
          [strOpt (some (.fin v)) ++ " " ++ ('+').toString ++ " " ++
            strOpt (some (.fin w)) ++ " = " ++ jstr (.fin (v + w))]⟩ := by
      simp [evalStep, applyOp, toJ, jadd]
    obtain ⟨tr, h1, h2⟩ := foldl_evalStep_add_units vs (v + w)
      [strOpt (some (.fin v)) ++ " " ++ ('+').toString ++ " " ++
        strOpt (some (.fin w)) ++ " = " ++ jstr (.fin (v + w))]
    have hrun2 : runRPN (Tok.num v :: Tok.num w :: Tok.sym '+' ::
        (vs.map fun x => [Tok.num x, Tok.sym '+']).flatten) =
        ⟨[JNum.fin (v + w + vs.sum)],
          [strOpt (some (.fin v)) ++ " " ++ ('+').toString ++ " " ++
            strOpt (some (.fin w)) ++ " = " ++ jstr (.fin (v + w))] ++ tr⟩ := by
      unfold runRPN
      simp only [List.foldl_cons, evalStep_num]
      show List.foldl evalStep
        (evalStep ⟨[JNum.fin w, JNum.fin v], []⟩ (Tok.sym '+')) _ = _
      rw [hstep]
      exact h1
    rw [hrun2] at hthis
    refine ⟨_, hthis, ?_, ?_⟩
    · show some (JNum.fin (v + w + vs.sum)) = _
      rw [List.map_cons, List.sum_cons, hvs, add_assoc]
    · simpa [hvs] using h2

/-- Witness for claim C4 at the concrete input `"12+3+40"`: value `55`,
two steps. -/
theorem sum_of_digit_plus_input_witness :
    ∃ o : Outcome, calculateExpressionWithSteps "12+3+40" = .ok o ∧
      o.result = some (.fin 55) ∧ o.steps.length = 2 := by
  obtain ⟨o, h1, h2, h3⟩ := sum_of_digit_plus_input ['1', '2'] [['3'], ['4', '0']]
    ⟨by decide, by decide⟩ (by decide)
  refine ⟨o, ?_, ?_, h3⟩
  · have hs : (⟨plusExpr ['1', '2'] [['3'], ['4', '0']]⟩ : String) = "12+3+40" := by decide
    rw [← hs]
    exact h1
  · have e1 : digitsToNat ['1', '2'] = 12 := by decide
    have e2 : digitsToNat ['3'] = 3 := by decide
    have e3 : digitsToNat ['4', '0'] = 40 := by decide
    rw [h2]
    simp only [List.map_cons, List.map_nil, List.sum_cons, List.sum_nil, e1, e2, e3]
    norm_num

/-- Claim C2: `evaluate("2+3*4")` succeeds with value `14` and step trace
exactly `["3 * 4 = 12", "2 + 12 = 14"]` — the multiplication resolves
before the addition. -/
theorem precedence_two_plus_three_times_four :
    calculateExpressionWithSteps "2+3*4" =
      .ok ⟨some (.fin 14), ["3 * 4 = 12", "2 + 12 = 14"]⟩ := by
  simp +decide [calculateExpressionWithSteps, jsValid, validChar, tokenize, tokenizeF, litVal,
    digitsToNat, toRPN, syScan, syStep, popWhileGE, popUntilParen, ops, shouldPop, runRPN,
    evalStep, applyOp, jadd, jmul, jdiv, jsub, jneg, toJ, strOpt, jstr, ratDecimal, isSymChar]
  norm_num
  decide

/-- Counterexample to claim C1: the input `"+2"` reaches the operator `+`
with a single value on the operand stack (the postfix sequence is
`[2, +]` and the stack before the operator holds one value), yet
evaluation does not fail with `MalformedExpression` — it succeeds, with
the missing left operand read as `undefined` and a `NaN` result. -/
theorem underflow_does_not_fail :
    toRPN (tokenize "+2".data) = [Tok.num 2, Tok.sym '+'] ∧
    (runRPN ((toRPN (tokenize "+2".data)).take 1)).calcStack.length = 1 ∧
    calculateExpressionWithSteps "+2" = .ok ⟨some .nan, ["undefined + 2 = NaN"]⟩ := by
  refine ⟨?_, ?_, ?_⟩ <;>
  · simp +decide [calculateExpressionWithSteps, jsValid, validChar, tokenize, tokenizeF,
      litVal, digitsToNat, toRPN, syScan, syStep, popWhileGE, popUntilParen, ops, shouldPop,
      runRPN, evalStep, applyOp, jadd, jmul, jdiv, jsub, jneg, toJ, strOpt, jstr, ratDecimal,
      isSymChar]

/-- Claim C1 as amended: applying one of the four operators with fewer
than two values on the operand stack does not fail; each empty-stack pop
yields `undefined` (converted to `NaN` by the arithmetic), so the
operator pushes `NaN` and appends one step, and evaluation continues. -/
theorem underflow_pushes_nan (st : EvalState) (c : Char)
    (hc : c = '+' ∨ c = '-' ∨ c = '*' ∨ c = '/') (h : st.calcStack.length < 2) :
    (evalStep st (Tok.sym c)).calcStack = JNum.nan :: st.calcStack.tail.tail ∧
    (evalStep st (Tok.sym c)).steps.length = st.steps.length + 1 := by
  obtain ⟨cs, stps⟩ := st
  refine ⟨?_, by simp [evalStep]⟩
  rcases cs with _ | ⟨x, cs'⟩
  · rcases hc with rfl | rfl | rfl | rfl <;>
      simp [evalStep, applyOp, toJ, jadd, jsub, jmul, jdiv, jneg]
  · rcases cs' with _ | ⟨y, cs''⟩
    · rcases hc with rfl | rfl | rfl | rfl <;>
        simp [evalStep, applyOp, toJ, jadd, jsub, jmul, jdiv, jneg]
    · exfalso
      simp at h
      omega

/-- Witness for the amended claim C1: the operator `+` on an empty operand
stack pushes `NaN` and records one step. -/
theorem underflow_pushes_nan_witness :
    (evalStep ⟨[], []⟩ (Tok.sym '+')).calcStack = [JNum.nan] ∧
    (evalStep ⟨[], []⟩ (Tok.sym '+')).steps.length = 1 := by
  have h := underflow_pushes_nan ⟨[], []⟩ '+' (Or.inl rfl) (by simp)
  simpa using h

/-- Counterexample to claim C3: for the input `"(2+3"` — an unmatched
left parenthesis — the final stack drain (line 39) appends the `(` to
the postfix output, so `(` does appear in the postfix sequence. -/
theorem unmatched_paren_emitted :
    toRPN (tokenize "(2+3".data) = [Tok.num 2, Tok.num 3, Tok.sym '+', Tok.sym '('] ∧
    Tok.sym '(' ∈ toRPN (tokenize "(2+3".data) := by
  constructor <;>
  · simp +decide [tokenize, tokenizeF, litVal, digitsToNat, toRPN, syScan, syStep,
      popWhileGE, popUntilParen, ops, shouldPop, isSymChar]

/-- Claim C3 as amended: after the scan, every entry remaining on the
operator stack — operators and any unmatched `(` alike — is appended to
the postfix output; nothing on the stack is discarded. -/
theorem stack_residue_emitted (ts : List Tok) (c : Char)
    (h : c ∈ (syScan ts).stack) : Tok.sym c ∈ toRPN ts := by
  unfold toRPN
  exact List.mem_append_right _ (List.mem_map_of_mem _ h)

/-- Witness for the amended claim C3: the unmatched `(` of `"(2+3"` is on
the final stack and hence appears in the postfix output. -/
theorem stack_residue_emitted_witness :
    Tok.sym '(' ∈ toRPN (tokenize "(2+3".data) :=
  stack_residue_emitted (tokenize "(2+3".data) '(' (by decide)

/-- Claim C5: any input containing a character outside
`[0-9+\-*/.() ]` fails validation with the `InvalidExpression` kind
(the `"Invalid expression"` throw at line 14, before tokenization). -/
theorem invalid_char_fails (s : String) (h : ∃ c ∈ s.data, validChar c = false) :
    calculateExpressionWithSteps s = .error "Invalid expression" ∧
    errKind "Invalid expression" = some ErrKind.invalidExpression := by
  obtain ⟨c, hc, hv⟩ := h
  have hall : s.data.all validChar = false :=
    List.all_eq_false.mpr ⟨c, hc, by simp [hv]⟩
  have hvalid : jsValid s = false := by simp [jsValid, hall]
  refine ⟨?_, rfl⟩
  unfold calculateExpressionWithSteps
  rw [if_neg (by simp [hvalid])]

/-- Witness for claim C5: `evaluate("2+3a")` fails with
`InvalidExpression`. -/
theorem invalid_char_fails_witness :
    calculateExpressionWithSteps "2+3a" = .error "Invalid expression" ∧
    errKind "Invalid expression" = some ErrKind.invalidExpression :=
  invalid_char_fails "2+3a" ⟨'a', by decide, by decide⟩

/-- Claim C6: the division operator applied with a zero right operand
never fails — it yields `Infinity`, `-Infinity` or `NaN` per IEEE-754
rules — and concretely `evaluate("1/0")` succeeds with value `Infinity`
and step `"1 / 0 = Infinity"`. -/
theorem div_by_zero_never_fails :
    (∀ a : Option JNum,
      applyOp '/' a (some (.fin 0)) = .inf ∨
      applyOp '/' a (some (.fin 0)) = .neginf ∨
      applyOp '/' a (some (.fin 0)) = .nan) ∧
    calculateExpressionWithSteps "1/0" = .ok ⟨some .inf, ["1 / 0 = Infinity"]⟩ := by
  constructor
  · intro a
    rcases a with _ | j
    · right; right; rfl
    · rcases j with _ | _ | _ | q
      · right; right; rfl
      · left; simp [applyOp, toJ, jdiv]
      · right; left; simp [applyOp, toJ, jdiv]
      · simp only [applyOp, toJ, jdiv]
        split_ifs <;> simp_all
  · simp +decide [calculateExpressionWithSteps, jsValid, validChar, tokenize, tokenizeF,
      litVal, digitsToNat, toRPN, syScan, syStep, popWhileGE, popUntilParen, ops, shouldPop,
      runRPN, evalStep, applyOp, jadd, jmul, jdiv, jsub, jneg, toJ, strOpt, jstr, ratDecimal,
      isSymChar]

/-- Witness for claim C6: division of `1` by zero yields one of the IEEE
special values (namely `Infinity`). -/
theorem div_by_zero_never_fails_witness :
    applyOp '/' (some (.fin 1)) (some (.fin 0)) = .inf ∨
    applyOp '/' (some (.fin 1)) (some (.fin 0)) = .neginf ∨
    applyOp '/' (some (.fin 1)) (some (.fin 0)) = .nan :=
  div_by_zero_never_fails.1 (some (.fin 1))

theorem range'_foldl_factorial : ∀ k : ℕ,
    (List.range' 2 k).foldl (fun (r : ℚ) (i : ℕ) => r * (i : ℚ)) 1 =
      (Nat.factorial (k + 1) : ℚ) := by
  intro k
  induction k with
  | zero => simp [Nat.factorial]
  | succ n ih =>
    rw [List.range'_1_concat, List.foldl_append, ih]
    simp only [List.foldl_cons, List.foldl_nil]
    rw [Nat.factorial_succ (n + 1)]
    push_cast
    ring

/-- Claim C7: `factorial` returns `NaN` for every negative input, and for
every non-negative integer `n` returns the iterative product
`2 * 3 * ⋯ * n = n!`. -/
theorem factorial_spec :
    (∀ n : ℚ, n < 0 → factorial n = .nan) ∧
    (∀ k : ℕ, factorial (k : ℚ) = .fin (Nat.factorial k : ℚ)) := by
  constructor
  · intro n hn
    unfold factorial
    rw [if_pos hn]
  · intro k
    have h0 : ¬ ((k : ℚ) < 0) := not_lt.mpr (by positivity)
    have hfloor : ((k : ℚ).floor).toNat = k := by
      rw [Rat.floor_def']
      simp
    unfold factorial
    rw [if_neg h0, hfloor]
    cases k with
    | zero => simp [Nat.factorial]
    | succ n =>
      rw [show n + 1 - 1 = n from rfl, range'_foldl_factorial n]

/-- Witness for claim C7: `factorial(-1) = NaN` and `factorial(5) = 120`. -/
theorem factorial_spec_witness :
    factorial (-1) = .nan ∧ factorial 5 = .fin 120 := by
  constructor
  · exact factorial_spec.1 (-1) (by norm_num)
  · have h := factorial_spec.2 5
    norm_num [Nat.factorial] at h
    exact h

/-- Claim C8: the evaluator is deterministic — it is a pure function of
the input string alone (the embedding itself is a total function, and
equal inputs give equal outcomes, steps included). -/
theorem deterministic (s t : String) (h : s = t) :
    calculateExpressionWithSteps s = calculateExpressionWithSteps t := by
  rw [h]

/-- Witness for claim C8: evaluating `"2+2"` twice gives the same
outcome, namely value `4` with step `"2 + 2 = 4"`. -/
theorem deterministic_witness :
    calculateExpressionWithSteps "2+2" = calculateExpressionWithSteps "2+2" ∧
    calculateExpressionWithSteps "2+2" = .ok ⟨some (.fin 4), ["2 + 2 = 4"]⟩ := by
  refine ⟨deterministic "2+2" "2+2" rfl, ?_⟩
  simp +decide [calculateExpressionWithSteps, jsValid, validChar, tokenize, tokenizeF,
    litVal, digitsToNat, toRPN, syScan, syStep, popWhileGE, popUntilParen, ops, shouldPop,
    runRPN, evalStep, applyOp, jadd, jmul, jdiv, jsub, jneg, toJ, strOpt, jstr, ratDecimal,
    isSymChar]
  norm_num
  decide

/-- Claim C9: the evaluator fails exactly when validation fails or
tokenization yields zero tokens; whenever validation passes and at least
one token is produced, the conversion and the postfix evaluation complete
and some outcome is returned. -/
theorem fails_iff_invalid_or_no_tokens (s : String) :
    ((∃ m, calculateExpressionWithSteps s = .error m) ↔
      (jsValid s = false ∨ tokenize s.data = [])) ∧
    ((jsValid s = true ∧ tokenize s.data ≠ []) →
      ∃ o, calculateExpressionWithSteps s = .ok o) := by
  by_cases hv : jsValid s = true
  · rcases ht : tokenize s.data with _ | ⟨t, ts⟩
    · refine ⟨⟨fun _ => Or.inr rfl, fun _ => ⟨"Invalid", ?_⟩⟩, fun hcon => absurd rfl hcon.2⟩
      unfold calculateExpressionWithSteps
      rw [if_pos hv, ht]
    · have hok := calc_eq_of_tokens s hv t ts ht
      refine ⟨⟨fun hm => ?_, fun hcon => ?_⟩, fun _ => ⟨_, hok⟩⟩
      · obtain ⟨m, hm⟩ := hm
        rw [hok] at hm
        exact absurd hm (by simp)
      · rcases hcon with h1 | h2
        · rw [hv] at h1
          exact absurd h1 (by simp)
        · exact absurd h2 (by simp)
  · have hv' : jsValid s = false := by simpa using hv
    refine ⟨⟨fun _ => Or.inl hv', fun _ => ⟨"Invalid expression", ?_⟩⟩,
      fun hcon => absurd hcon.1 hv⟩
    unfold calculateExpressionWithSteps
    rw [if_neg hv]

/-- Witness for claim C9: `"7"` passes validation, produces one token,
and evaluation returns an outcome. -/
theorem fails_iff_invalid_or_no_tokens_witness :
    ∃ o, calculateExpressionWithSteps "7" = .ok o :=
  (fails_iff_invalid_or_no_tokens "7").2 ⟨by decide, by decide⟩

/-- Claim C10: a `.` at which the scan restarts matches no token and is
skipped; concretely `"2.+3"` tokenizes as `[2, +, 3]` and evaluates to
`5` with step `"2 + 3 = 5"`. -/
theorem stray_dot_skipped :
    (∀ l : List Char, tokenize ('.' :: l) = tokenize l) ∧
    tokenize "2.+3".data = [Tok.num 2, Tok.sym '+', Tok.num 3] ∧
    calculateExpressionWithSteps "2.+3" = .ok ⟨some (.fin 5), ["2 + 3 = 5"]⟩ := by
  refine ⟨tokenize_dot_cons, ?_, ?_⟩
  · simp +decide [tokenize, tokenizeF, litVal, digitsToNat, isSymChar]
  · simp +decide [calculateExpressionWithSteps, jsValid, validChar, tokenize, tokenizeF,
      litVal, digitsToNat, toRPN, syScan, syStep, popWhileGE, popUntilParen, ops, shouldPop,
      runRPN, evalStep, applyOp, jadd, jmul, jdiv, jsub, jneg, toJ, strOpt, jstr, ratDecimal,
      isSymChar]
    norm_num
    decide

/-- Witness for claim C10: the stray-dot skip applied at `".2"`-style
position. -/
theorem stray_dot_skipped_witness :
    tokenize ('.' :: ['2']) = tokenize ['2'] :=
  stray_dot_skipped.1 ['2']

end CalcApp
